import Mathlib

/-!
Verification of the Brownian Motion benchmark models
(`inference_gym/targets/brownian_motion.py`).

The source file declares, over TensorFlow Probability:
  * `brownian_motion_prior_fn`: a generative coroutine yielding one Normal
    distribution per timestep (a first-order Markov chain);
  * `brownian_motion_unknown_scales_prior_fn`: the same process with two
    LogNormal scale draws prepended;
  * `brownian_motion_log_likelihood_fn`: a masked sum of per-timestep Normal
    log-densities of observed `locs` against latent positions;
  * model wrapper classes `BrownianMotion` / `BrownianMotionUnknownScales`
    with event-space bijectors and `identity` sample transformations.

Embedding conventions:
  * Tensors of scalars are `List ℝ` (one sample, one value per timestep).
  * A `locs` entry is a `LocEntry`: either a finite real or one of the
    non-finite IEEE values (NaN, +inf, -inf), so that the
    `tf.math.is_finite` mask is expressible without float semantics.
  * A generative coroutine is embedded as a function from the sequence of
    sampled values (`ℕ → ℝ`, the value the t-th `yield` receives back) to
    the list of distributions it yields.
  * Fallible tensor operations (shape mismatches, short tuple unpacking)
    return `Option`.
-/

/-- One entry of the observed `locs` array.  The Python code stores
observations as floats where a missing observation is a NaN sentinel; any
non-finite float (NaN, +inf, -inf) is treated as missing by
`tf.math.is_finite`. -/
inductive LocEntry where
  | finite (x : ℝ)
  | nan
  | posInf
  | negInf

/-- Embeds `tf.math.is_finite` on one `locs` entry. -/
def LocEntry.isFinite : LocEntry → Bool
  | .finite _ => true
  | _ => false

/-- Embeds `tf.where(tf.math.is_finite(locs), locs, 0.)` on one entry: the
observed value where the observation is finite, `0` otherwise. -/
noncomputable def LocEntry.maskedValue : LocEntry → ℝ
  | .finite x => x
  | _ => 0

/-- Log-density of `tfd.Normal(loc, scale)` at `x`:
`-((x - loc) / scale)^2 / 2 - log scale - log (sqrt (2 * pi))`. -/
noncomputable def normal_log_prob (loc scale x : ℝ) : ℝ :=
  -(((x - loc) / scale) ^ 2) / 2 - Real.log scale - Real.log (Real.sqrt (2 * Real.pi))

/-- Embeds `lps = tfd.Normal(loc=latents, scale=observation_noise_scale)
.log_prob(tf.where(tf.math.is_finite(locs), locs, 0.))`: the elementwise
Normal log-density of the masked observations against the latents. -/
noncomputable def bm_lps (latents : List ℝ) (scale : ℝ) (locs : List LocEntry) : List ℝ :=
  List.zipWith (fun x e => normal_log_prob x scale e.maskedValue) latents locs

/-- Embeds `tf.reduce_sum(tf.where(tf.math.is_finite(locs), lps, 0.), axis=-1)`:
zero out the log-density terms at missing observations, then sum. -/
noncomputable def bm_masked_sum (lps : List ℝ) (locs : List LocEntry) : ℝ :=
  (List.zipWith (fun lp e => if e.isFinite then lp else 0) lps locs).sum

/-- Embeds `brownian_motion_log_likelihood_fn(values, locs,
observation_noise_scale)`.  When `observation_noise_scale` is `none`, the
source unpacks `(_, observation_noise_scale), values = values[:2], values[2:]`
(a `ValueError` — here `none` — if `values` has fewer than two entries).
`latents = tf.stack(values, axis=-1)` raises on an empty sequence of
values — here `none` — and then broadcasts against `locs` inside
`log_prob`; a length mismatch is a shape error — here `none`. -/
noncomputable def brownian_motion_log_likelihood_fn
    (values : List ℝ) (locs : List LocEntry)
    (observation_noise_scale : Option ℝ) : Option ℝ :=
  match observation_noise_scale, values with
  | some _, [] => none
  | some s, v :: vs =>
      if (v :: vs).length = locs.length then
        some (bm_masked_sum (bm_lps (v :: vs) s locs) locs)
      else none
  | none, _v0 :: v1 :: r :: rest =>
      if (r :: rest).length = locs.length then
        some (bm_masked_sum (bm_lps (r :: rest) v1 locs) locs)
      else none
  | none, _ => none

/-- One Normal distribution yielded by `brownian_motion_prior_fn`. -/
structure NormalSpec where
  loc : ℝ
  scale : ℝ

/-- Embeds the generative coroutine `brownian_motion_prior_fn(num_timesteps,
innovation_noise_scale)`.  `samples t` is the value the t-th `yield` receives
back (the sampled latent position `x_t`).  The body yields
`Normal(0, innovation_noise_scale)` once (unconditionally), then
`Normal(new, innovation_noise_scale)` for each `t in range(1, num_timesteps)`,
where `new` is the sample received for the previous variable. -/
noncomputable def brownian_motion_prior_fn (num_timesteps : ℕ)
    (innovation_noise_scale : ℝ) (samples : ℕ → ℝ) : List NormalSpec :=
  { loc := 0, scale := innovation_noise_scale } ::
    (List.range' 1 (num_timesteps - 1)).map
      (fun t => { loc := samples (t - 1), scale := innovation_noise_scale })

/-- One distribution yielded by the unknown-scales coroutine: either a
`tfd.Normal` or a `tfd.LogNormal`. -/
inductive DistSpec where
  | normal (loc scale : ℝ)
  | logNormal (loc scale : ℝ)

/-- Whether a yielded distribution is a `tfd.Normal` (a latent-position
variable, as opposed to a LogNormal scale draw). -/
def DistSpec.isNormal : DistSpec → Bool
  | .normal _ _ => true
  | _ => false

/-- Embeds `brownian_motion_unknown_scales_prior_fn(num_timesteps)`: yields
`LogNormal(0., 2.)` for `innovation_noise_scale` (receiving back `samples 0`),
yields `LogNormal(0., 2.)` for `observation_noise_scale` (its sample,
`samples 1`, is discarded), then delegates via `yield from` to
`brownian_motion_prior_fn` with the sampled innovation noise scale; the
delegated coroutine receives the subsequent samples `samples (i + 2)`. -/
noncomputable def brownian_motion_unknown_scales_prior_fn
    (num_timesteps : ℕ) (samples : ℕ → ℝ) : List DistSpec :=
  DistSpec.logNormal 0 2 ::
    DistSpec.logNormal 0 2 ::
      (brownian_motion_prior_fn num_timesteps (samples 0)
        (fun i => samples (i + 2))).map (fun d => DistSpec.normal d.loc d.scale)

/-- One component of a default event-space bijector: `tfb.Identity()` or
`tfb.Softplus()`. -/
inductive Bijector where
  | identity
  | softplus
  deriving DecidableEq

/-- Forward application of one bijector component to one unconstrained real:
`tfb.Identity()` is `x ↦ x`; `tfb.Softplus()` is `x ↦ log (1 + exp x)`. -/
noncomputable def Bijector.forward : Bijector → ℝ → ℝ
  | .identity, x => x
  | .softplus, x => Real.log (1 + Real.exp x)

/-- Embeds `tf.stack(params, axis=-1)` on a tuple of per-sample scalar
tensors: stacking scalars along a new trailing axis yields the vector of
those scalars in order. -/
def tf_stack (params : List ℝ) : List ℝ := params

/-- State of a `BrownianMotion` model instance, as set up by
`BrownianMotion.__init__(locs, innovation_noise_scale,
observation_noise_scale)`. -/
structure BrownianMotion where
  locs : List LocEntry
  innovation_noise_scale : ℝ
  observation_noise_scale : ℝ

/-- `num_timesteps = locs.shape[0]`. -/
def BrownianMotion.num_timesteps (m : BrownianMotion) : ℕ := m.locs.length

/-- The model's prior distribution `self._prior_dist`:
`JointDistributionCoroutine(partial(brownian_motion_prior_fn,
num_timesteps=num_timesteps, innovation_noise_scale=innovation_noise_scale))`,
embedded as the list of distributions the coroutine yields for a given
sample sequence. -/
noncomputable def BrownianMotion.prior_dist (m : BrownianMotion)
    (samples : ℕ → ℝ) : List NormalSpec :=
  brownian_motion_prior_fn m.num_timesteps m.innovation_noise_scale samples

/-- The method `BrownianMotion.log_likelihood(value)`, which calls
`self._log_likelihood_fn = partial(brownian_motion_log_likelihood_fn,
observation_noise_scale=observation_noise_scale, locs=locs)`.  The method
body only reads `self`, so the explicit-state embedding returns the model
state unchanged alongside the result. -/
noncomputable def BrownianMotion.log_likelihood_call (m : BrownianMotion)
    (value : List ℝ) : Option ℝ × BrownianMotion :=
  (brownian_motion_log_likelihood_fn value m.locs (some m.observation_noise_scale), m)

/-- `event_space_bijector = type(dtype)(*([tfb.Identity()] * num_timesteps))`
for the fixed-scales model. -/
def BrownianMotion.default_event_space_bijector (m : BrownianMotion) : List Bijector :=
  List.replicate m.num_timesteps Bijector.identity

/-- The fixed-scales `_ext_identity(params)` sample transformation:
`tf.stack(params, axis=-1)`. -/
def BrownianMotion.ext_identity (params : List ℝ) : List ℝ :=
  tf_stack params

/-- State of a `BrownianMotionUnknownScales` model instance, as set up by
`BrownianMotionUnknownScales.__init__(locs)`. -/
structure BrownianMotionUnknownScales where
  locs : List LocEntry

/-- `num_timesteps = locs.shape[0]`. -/
def BrownianMotionUnknownScales.num_timesteps (m : BrownianMotionUnknownScales) : ℕ :=
  m.locs.length

/-- The model's prior distribution `self._prior_dist`:
`JointDistributionCoroutine(partial(brownian_motion_unknown_scales_prior_fn,
num_timesteps=num_timesteps))`. -/
noncomputable def BrownianMotionUnknownScales.prior_dist
    (m : BrownianMotionUnknownScales) (samples : ℕ → ℝ) : List DistSpec :=
  brownian_motion_unknown_scales_prior_fn m.num_timesteps samples

/-- The method `BrownianMotionUnknownScales.log_likelihood(value)`, calling
`self._log_likelihood_fn = partial(brownian_motion_log_likelihood_fn,
locs=locs)` with no fixed observation noise scale.  The method body only
reads `self`, so the explicit-state embedding returns the model state
unchanged alongside the result. -/
noncomputable def BrownianMotionUnknownScales.log_likelihood_call
    (m : BrownianMotionUnknownScales) (value : List ℝ) :
    Option ℝ × BrownianMotionUnknownScales :=
  (brownian_motion_log_likelihood_fn value m.locs none, m)

/-- `event_space_bijector = type(dtype)(*([tfb.Softplus(), tfb.Softplus()] +
[tfb.Identity()] * num_timesteps))` for the unknown-scales model. -/
def BrownianMotionUnknownScales.default_event_space_bijector
    (m : BrownianMotionUnknownScales) : List Bijector :=
  [Bijector.softplus, Bijector.softplus] ++
    List.replicate m.num_timesteps Bijector.identity

/-- The dictionary returned by the unknown-scales `_ext_identity(params)`. -/
structure UnknownScalesIdentityRecord where
  innovation_noise_scale : ℝ
  observation_noise_scale : ℝ
  locs : List ℝ

/-- The unknown-scales `_ext_identity(params)` sample transformation:
`{'innovation_noise_scale': params[0], 'observation_noise_scale': params[1],
'locs': tf.stack(params[2:], axis=-1)}` (an `IndexError` — here `none` — if
`params` has fewer than two entries, and `tf.stack` raises — here `none` —
when the slice `params[2:]` is empty). -/
def BrownianMotionUnknownScales.ext_identity (params : List ℝ) :
    Option UnknownScalesIdentityRecord :=
  match params with
  | p0 :: p1 :: r :: rest =>
      some { innovation_noise_scale := p0
             observation_noise_scale := p1
             locs := tf_stack (r :: rest) }
  | _ => none

/-- The per-timestep contribution of one observation entry to the masked
log-likelihood: the Normal log-density at the observed value when the
observation is finite, and zero when it is missing. -/
noncomputable def bm_contribution (x scale : ℝ) : LocEntry → ℝ
  | LocEntry.finite y => normal_log_prob x scale y
  | _ => 0

theorem bm_masked_sum_lps (scale : ℝ) :
    ∀ (latents : List ℝ) (locs : List LocEntry),
      bm_masked_sum (bm_lps latents scale locs) locs
        = (List.zipWith (fun x e => bm_contribution x scale e) latents locs).sum := by
  intro latents locs
  induction locs generalizing latents with
  | nil => cases latents <;> simp [bm_masked_sum, bm_lps]
  | cons e rest ih =>
    cases latents with
    | nil => simp [bm_masked_sum, bm_lps]
    | cons x xs =>
      have htail := ih xs
      cases e <;>
        simp [bm_masked_sum, bm_lps, bm_contribution, LocEntry.isFinite,
          LocEntry.maskedValue] at htail ⊢ <;>
        simpa using htail

theorem zipWith_sum_eq_fin_sum (f : ℝ → LocEntry → ℝ) :
    ∀ (values : List ℝ) (locs : List LocEntry), values.length = locs.length →
      (List.zipWith f values locs).sum
        = ∑ i : Fin locs.length, f (values.getD i 0) (locs.get i) := by
  intro values locs
  induction locs generalizing values with
  | nil => intro _; simp
  | cons e rest ih =>
    intro h
    cases values with
    | nil => simp at h
    | cons x xs =>
      have h' : xs.length = rest.length := by simpa using h
      simp only [List.zipWith, List.sum_cons, List.length_cons]
      rw [Fin.sum_univ_succ, ih xs h']
      simp [List.getD]

/-- C1 counterexample: at the empty locs array (with the matching empty
assignment of latent positions and observation noise scale 1) the source
raises at `tf.stack` of an empty sequence of values instead of returning
the (empty, zero) sum of per-timestep log-densities that the claim
predicts. -/
theorem log_likelihood_empty_values_raises :
    brownian_motion_log_likelihood_fn [] [] (some 1)
      ≠ some (∑ i : Fin ([] : List LocEntry).length,
          match ([] : List LocEntry).get i with
          | LocEntry.finite y => normal_log_prob (([] : List ℝ).getD i 0) 1 y
          | LocEntry.nan => 0
          | LocEntry.posInf => 0
          | LocEntry.negInf => 0) := by
  simp [brownian_motion_log_likelihood_fn]

/-- C1 (amended): for every NONEMPTY locs array, assignment of latent
positions (one per timestep) and positive observation noise scale,
`brownian_motion_log_likelihood_fn` returns a single scalar equal to the
sum, over exactly the timesteps whose locs entry is finite, of the Normal
log-density of the observed loc with mean the latent position at that
timestep and scale the observation noise scale; missing timesteps
contribute exactly zero.  (At the empty locs array the source raises at
`tf.stack` of an empty sequence.) -/
theorem log_likelihood_sums_observed_normal_densities
    (values : List ℝ) (locs : List LocEntry) (σ : ℝ)
    (hσ : 0 < σ) (hne : 1 ≤ locs.length) (hlen : values.length = locs.length) :
    brownian_motion_log_likelihood_fn values locs (some σ)
      = some (∑ i : Fin locs.length,
          match locs.get i with
          | LocEntry.finite y => normal_log_prob (values.getD i 0) σ y
          | LocEntry.nan => 0
          | LocEntry.posInf => 0
          | LocEntry.negInf => 0) := by
  cases values with
  | nil =>
    rw [List.length_nil] at hlen
    omega
  | cons v vs =>
    show (if (v :: vs).length = locs.length then
            some (bm_masked_sum (bm_lps (v :: vs) σ locs) locs)
          else none) = _
    rw [if_pos hlen, bm_masked_sum_lps,
      zipWith_sum_eq_fin_sum (fun x e => bm_contribution x σ e) (v :: vs) locs hlen]
    refine congrArg some (Finset.sum_congr rfl fun i _ => ?_)
    cases h : locs.get i <;> simp [bm_contribution]

theorem log_likelihood_sums_observed_normal_densities_witness :
    (0 : ℝ) < 1
  ∧ 1 ≤ [LocEntry.finite 2, LocEntry.nan].length
  ∧ [(3 : ℝ), 5].length = [LocEntry.finite 2, LocEntry.nan].length
  ∧ brownian_motion_log_likelihood_fn [3, 5] [LocEntry.finite 2, LocEntry.nan] (some 1)
      = some (∑ i : Fin [LocEntry.finite 2, LocEntry.nan].length,
          match [LocEntry.finite 2, LocEntry.nan].get i with
          | LocEntry.finite y => normal_log_prob ([(3 : ℝ), 5].getD i 0) 1 y
          | LocEntry.nan => 0
          | LocEntry.posInf => 0
          | LocEntry.negInf => 0) :=
  ⟨one_pos, Nat.le_of_lt Nat.one_lt_two, rfl,
    log_likelihood_sums_observed_normal_densities [3, 5]
      [LocEntry.finite 2, LocEntry.nan] 1 one_pos
      (Nat.le_of_lt Nat.one_lt_two) rfl⟩

/-- C4: with no fixed observation noise scale, the likelihood treats the
first two entries of `values` as the sampled innovation and observation
noise scales, uses only the second of them as the per-timestep log-density
scale, treats the remaining entries as the latent positions, and does not
depend on the first entry. -/
theorem unknown_scales_likelihood_unpacking
    (v0 v0' v1 : ℝ) (rest : List ℝ) (locs : List LocEntry) :
    brownian_motion_log_likelihood_fn (v0 :: v1 :: rest) locs none
      = brownian_motion_log_likelihood_fn rest locs (some v1)
  ∧ brownian_motion_log_likelihood_fn (v0 :: v1 :: rest) locs none
      = brownian_motion_log_likelihood_fn (v0' :: v1 :: rest) locs none := by
  cases rest with
  | nil => exact ⟨rfl, rfl⟩
  | cons r rs => exact ⟨rfl, rfl⟩

theorem bm_masked_sum_set_nan (scale : ℝ) :
    ∀ (latents : List ℝ) (locs : List LocEntry) (i : ℕ),
      (locs.getD i LocEntry.nan).isFinite = false →
      bm_masked_sum (bm_lps latents scale (locs.set i LocEntry.nan))
          (locs.set i LocEntry.nan)
        = bm_masked_sum (bm_lps latents scale locs) locs := by
  intro latents locs
  induction locs generalizing latents with
  | nil => intro i _; simp
  | cons e rest ih =>
    intro i hnf
    cases latents with
    | nil => simp [bm_masked_sum, bm_lps]
    | cons x xs =>
      cases i with
      | zero =>
        cases e <;>
          simp_all [bm_masked_sum, bm_lps, LocEntry.isFinite]
      | succ j =>
        have hj : (rest.getD j LocEntry.nan).isFinite = false := by
          simpa [List.getD] using hnf
        have htail := ih xs j hj
        simp only [List.set_cons_succ]
        cases e <;>
          simp_all [bm_masked_sum, bm_lps, LocEntry.isFinite]

/-- C9: the missing-observation mask is finiteness, not a NaN check:
replacing any non-finite locs entry (NaN, +inf or -inf) by the NaN sentinel
leaves the log-likelihood unchanged, i.e. every non-finite entry is masked
out exactly as a NaN is. -/
theorem non_finite_entries_masked_like_nan
    (values : List ℝ) (locs : List LocEntry) (sOpt : Option ℝ) (i : ℕ)
    (hi : i < locs.length)
    (hnf : (locs.getD i LocEntry.nan).isFinite = false) :
    brownian_motion_log_likelihood_fn values (locs.set i LocEntry.nan) sOpt
      = brownian_motion_log_likelihood_fn values locs sOpt := by
  cases sOpt with
  | some s =>
    cases values with
    | nil => rfl
    | cons v vs =>
      show (if (v :: vs).length = (locs.set i LocEntry.nan).length then _ else _) = _
      rw [List.length_set]
      by_cases h : (v :: vs).length = locs.length
      · rw [if_pos h]
        show _ = (if (v :: vs).length = locs.length then _ else _)
        rw [if_pos h, bm_masked_sum_set_nan s (v :: vs) locs i hnf]
      · rw [if_neg h]
        show _ = (if (v :: vs).length = locs.length then _ else _)
        rw [if_neg h]
  | none =>
    match values with
    | [] => rfl
    | [_] => rfl
    | [_, _] => rfl
    | v0 :: v1 :: r :: rest =>
      show (if (r :: rest).length = (locs.set i LocEntry.nan).length then _ else _) = _
      rw [List.length_set]
      by_cases h : (r :: rest).length = locs.length
      · rw [if_pos h]
        show _ = (if (r :: rest).length = locs.length then _ else _)
        rw [if_pos h, bm_masked_sum_set_nan v1 (r :: rest) locs i hnf]
      · rw [if_neg h]
        show _ = (if (r :: rest).length = locs.length then _ else _)
        rw [if_neg h]

theorem non_finite_entries_masked_like_nan_witness :
    (0 : ℕ) < [LocEntry.posInf].length
  ∧ ([LocEntry.posInf].getD 0 LocEntry.nan).isFinite = false
  ∧ brownian_motion_log_likelihood_fn [(4 : ℝ)]
        ([LocEntry.posInf].set 0 LocEntry.nan) (some 1)
      = brownian_motion_log_likelihood_fn [(4 : ℝ)] [LocEntry.posInf] (some 1) :=
  ⟨Nat.one_pos, rfl,
    non_finite_entries_masked_like_nan [(4 : ℝ)] [LocEntry.posInf] (some 1) 0
      Nat.one_pos rfl⟩

theorem bm_masked_sum_all_missing (scale : ℝ) :
    ∀ (latents : List ℝ) (locs : List LocEntry),
      (∀ e ∈ locs, e.isFinite = false) →
      bm_masked_sum (bm_lps latents scale locs) locs = 0 := by
  intro latents locs
  induction locs generalizing latents with
  | nil => intro _; simp [bm_masked_sum, bm_lps]
  | cons e rest ih =>
    intro hall
    cases latents with
    | nil => simp [bm_masked_sum, bm_lps]
    | cons x xs =>
      have hhead : e.isFinite = false := hall e (List.mem_cons_self e rest)
      have htail := ih xs (fun a ha => hall a (List.mem_cons_of_mem e ha))
      simp_all [bm_masked_sum, bm_lps]

/-- C10 counterexample: at the empty input (no latent positions, empty locs
array — every one of its zero observations vacuously missing — and
observation noise scale 1) the claim predicts the returned log-likelihood
is exactly zero, but the source raises at `tf.stack` of an empty sequence
of values. -/
theorem log_likelihood_empty_all_missing_raises :
    brownian_motion_log_likelihood_fn [] [] (some 1) ≠ some 0 := by
  simp [brownian_motion_log_likelihood_fn]

/-- C10 (amended): missing locs entries are replaced by zero before the
Normal log-density is evaluated and the corresponding log-density terms are
then replaced by zero before summation, so for every NONEMPTY locs array,
finite latent positions and a positive observation noise scale the function
returns a (finite) real value regardless of how many observations are
missing, and when every observation is missing it returns exactly zero.
(At the empty locs array the source raises at `tf.stack` of an empty
sequence.) -/
theorem log_likelihood_defined_and_zero_when_all_missing
    (values : List ℝ) (locs : List LocEntry) (σ : ℝ)
    (hσ : 0 < σ) (hne : 1 ≤ locs.length) (hlen : values.length = locs.length) :
    (∃ r : ℝ, brownian_motion_log_likelihood_fn values locs (some σ) = some r)
  ∧ ((∀ e ∈ locs, e.isFinite = false) →
      brownian_motion_log_likelihood_fn values locs (some σ) = some 0) := by
  cases values with
  | nil =>
    rw [List.length_nil] at hlen
    omega
  | cons v vs =>
    constructor
    · refine ⟨bm_masked_sum (bm_lps (v :: vs) σ locs) locs, ?_⟩
      show (if (v :: vs).length = locs.length then _ else _) = _
      rw [if_pos hlen]
    · intro hall
      show (if (v :: vs).length = locs.length then _ else _) = _
      rw [if_pos hlen, bm_masked_sum_all_missing σ (v :: vs) locs hall]

theorem log_likelihood_defined_and_zero_when_all_missing_witness :
    (0 : ℝ) < 1
  ∧ 1 ≤ [LocEntry.nan].length
  ∧ [(7 : ℝ)].length = [LocEntry.nan].length
  ∧ (∀ e ∈ [LocEntry.nan], e.isFinite = false)
  ∧ brownian_motion_log_likelihood_fn [(7 : ℝ)] [LocEntry.nan] (some 1) = some 0 :=
  ⟨one_pos, Nat.le_refl 1, rfl, by simp [LocEntry.isFinite],
    (log_likelihood_defined_and_zero_when_all_missing [(7 : ℝ)] [LocEntry.nan] 1
      one_pos (Nat.le_refl 1) rfl).2 (by simp [LocEntry.isFinite])⟩

/-- C2: for `num_timesteps ≥ 1`, the generative process yields exactly
`num_timesteps` Normal variables; the first has mean zero, each subsequent
one at timestep `t` has mean the sampled value at timestep `t - 1`, and
every one has scale the single shared innovation noise scale. -/
theorem prior_is_markov_chain_of_normals
    (n : ℕ) (σ : ℝ) (samples : ℕ → ℝ) (hn : 1 ≤ n) :
    (brownian_motion_prior_fn n σ samples).length = n
  ∧ ∀ t, t < n →
      (brownian_motion_prior_fn n σ samples).getD t { loc := 0, scale := 0 }
        = { loc := if t = 0 then 0 else samples (t - 1), scale := σ } := by
  constructor
  · simp only [brownian_motion_prior_fn, List.length_cons, List.length_map,
      List.length_range']
    omega
  · intro t ht
    cases t with
    | zero => simp [brownian_motion_prior_fn]
    | succ j =>
      have hj : j < n - 1 := by omega
      simp [brownian_motion_prior_fn, List.getD_eq_getElem?_getD,
        List.getElem?_map, List.getElem?_range' 1 1 hj]

theorem prior_is_markov_chain_of_normals_witness :
    1 ≤ 2
  ∧ (brownian_motion_prior_fn 2 5 (fun i => (i : ℝ) + 9)).length = 2
  ∧ (brownian_motion_prior_fn 2 5 (fun i => (i : ℝ) + 9)).getD 1 { loc := 0, scale := 0 }
      = { loc := if 1 = 0 then 0 else ((0 : ℕ) : ℝ) + 9, scale := 5 } :=
  ⟨Nat.le_of_lt Nat.one_lt_two,
    (prior_is_markov_chain_of_normals 2 5 (fun i => (i : ℝ) + 9)
      (Nat.le_of_lt Nat.one_lt_two)).1,
    (prior_is_markov_chain_of_normals 2 5 (fun i => (i : ℝ) + 9)
      (Nat.le_of_lt Nat.one_lt_two)).2 1 Nat.one_lt_two⟩

/-- C3: the unknown-scales process first yields two LogNormal(0, 2) draws —
both unconditional (independent of every sampled value) — and then
delegates to the base process with the first draw as innovation noise
scale, so its output is exactly those two draws followed by the
`num_timesteps` latent-position Normals of the base process. -/
theorem unknown_scales_prior_prepends_two_lognormals
    (n : ℕ) (samples : ℕ → ℝ) (hn : 1 ≤ n) :
    (brownian_motion_unknown_scales_prior_fn n samples).length = n + 2
  ∧ (∀ other : ℕ → ℝ,
      (brownian_motion_unknown_scales_prior_fn n samples).getD 0 (DistSpec.normal 0 0)
        = (brownian_motion_unknown_scales_prior_fn n other).getD 0 (DistSpec.normal 0 0)
    ∧ (brownian_motion_unknown_scales_prior_fn n samples).getD 1 (DistSpec.normal 0 0)
        = (brownian_motion_unknown_scales_prior_fn n other).getD 1 (DistSpec.normal 0 0))
  ∧ (brownian_motion_unknown_scales_prior_fn n samples).getD 0 (DistSpec.normal 0 0)
      = DistSpec.logNormal 0 2
  ∧ (brownian_motion_unknown_scales_prior_fn n samples).getD 1 (DistSpec.normal 0 0)
      = DistSpec.logNormal 0 2
  ∧ (brownian_motion_unknown_scales_prior_fn n samples).drop 2
      = (brownian_motion_prior_fn n (samples 0) (fun i => samples (i + 2))).map
          (fun d => DistSpec.normal d.loc d.scale) := by
  refine ⟨?_, fun other => ⟨rfl, rfl⟩, rfl, rfl, rfl⟩
  simp only [brownian_motion_unknown_scales_prior_fn, brownian_motion_prior_fn,
    List.length_cons, List.length_map, List.length_range']
  omega

theorem unknown_scales_prior_prepends_two_lognormals_witness :
    1 ≤ 1
  ∧ (brownian_motion_unknown_scales_prior_fn 1 (fun _ => 4)).length = 1 + 2
  ∧ (brownian_motion_unknown_scales_prior_fn 1 (fun _ => 4)).getD 0 (DistSpec.normal 0 0)
      = DistSpec.logNormal 0 2 :=
  ⟨Nat.le_refl 1,
    (unknown_scales_prior_prepends_two_lognormals 1 (fun _ => 4) (Nat.le_refl 1)).1,
    (unknown_scales_prior_prepends_two_lognormals 1 (fun _ => 4) (Nat.le_refl 1)).2.2.1⟩

/-- C5 counterexample: `brownian_motion_prior_fn` yields `x_0`
unconditionally before its `for t in range(1, num_timesteps)` loop, so a
model constructed from an EMPTY locs array has one latent variable in its
prior while the locs array has length zero. -/
theorem num_latents_mismatch_on_empty_locs :
    ((BrownianMotion.mk [] 1 1).prior_dist (fun _ => 0)).length
      ≠ (BrownianMotion.mk [] 1 1).locs.length := by
  simp [BrownianMotion.prior_dist, BrownianMotion.num_timesteps,
    brownian_motion_prior_fn]

/-- C5 (amended): for every model constructed from a nonempty locs array,
the number of latent timestep variables in the prior equals the length of
the locs array; the unknown-scales models have exactly that many Normal
latent-position variables plus the two LogNormal scale variables. -/
theorem num_latents_eq_num_locs :
    (∀ (m : BrownianMotion) (samples : ℕ → ℝ), 1 ≤ m.locs.length →
        (m.prior_dist samples).length = m.locs.length)
  ∧ (∀ (m : BrownianMotionUnknownScales) (samples : ℕ → ℝ), 1 ≤ m.locs.length →
        (m.prior_dist samples).length = m.locs.length + 2
      ∧ (m.prior_dist samples).countP DistSpec.isNormal = m.locs.length) := by
  constructor
  · intro m samples hm
    simp only [BrownianMotion.prior_dist, BrownianMotion.num_timesteps,
      brownian_motion_prior_fn, List.length_cons, List.length_map,
      List.length_range']
    omega
  · intro m samples hm
    constructor
    · simp only [BrownianMotionUnknownScales.prior_dist,
        BrownianMotionUnknownScales.num_timesteps,
        brownian_motion_unknown_scales_prior_fn, brownian_motion_prior_fn,
        List.length_cons, List.length_map, List.length_range']
      omega
    · simp only [BrownianMotionUnknownScales.prior_dist,
        BrownianMotionUnknownScales.num_timesteps,
        brownian_motion_unknown_scales_prior_fn, brownian_motion_prior_fn,
        List.countP_cons, List.countP_map, DistSpec.isNormal]
      simp [Function.comp_def, DistSpec.isNormal, List.countP_true]
      omega

theorem num_latents_eq_num_locs_witness :
    1 ≤ (BrownianMotion.mk [LocEntry.nan] 1 1).locs.length
  ∧ ((BrownianMotion.mk [LocEntry.nan] 1 1).prior_dist (fun _ => 0)).length
      = (BrownianMotion.mk [LocEntry.nan] 1 1).locs.length
  ∧ 1 ≤ (BrownianMotionUnknownScales.mk [LocEntry.nan]).locs.length
  ∧ ((BrownianMotionUnknownScales.mk [LocEntry.nan]).prior_dist (fun _ => 0)).countP
      DistSpec.isNormal = (BrownianMotionUnknownScales.mk [LocEntry.nan]).locs.length :=
  ⟨Nat.le_refl 1,
    num_latents_eq_num_locs.1 (BrownianMotion.mk [LocEntry.nan] 1 1)
      (fun _ => 0) (Nat.le_refl 1),
    Nat.le_refl 1,
    (num_latents_eq_num_locs.2 (BrownianMotionUnknownScales.mk [LocEntry.nan])
      (fun _ => 0) (Nat.le_refl 1)).2⟩

/-- C6: the fixed-scales default event-space bijector is the identity on
every component; the unknown-scales one applies Softplus to each of the two
noise-scale components — mapping every real to a strictly positive value —
and the identity to each of the `num_timesteps` latent-position
components. -/
theorem default_event_space_bijector_spec :
    (∀ (m : BrownianMotion) (b : Bijector),
        b ∈ m.default_event_space_bijector → b = Bijector.identity)
  ∧ (∀ m : BrownianMotion,
        m.default_event_space_bijector.length = m.num_timesteps)
  ∧ (∀ m : BrownianMotionUnknownScales,
        m.default_event_space_bijector.length = m.num_timesteps + 2
      ∧ m.default_event_space_bijector.getD 0 Bijector.identity = Bijector.softplus
      ∧ m.default_event_space_bijector.getD 1 Bijector.identity = Bijector.softplus
      ∧ ∀ i, 2 ≤ i → i < m.num_timesteps + 2 →
          m.default_event_space_bijector.getD i Bijector.softplus = Bijector.identity)
  ∧ (∀ x : ℝ, Bijector.identity.forward x = x)
  ∧ (∀ x : ℝ, 0 < Bijector.softplus.forward x) := by
  refine ⟨?_, ?_, ?_, fun x => rfl, ?_⟩
  · intro m b hb
    exact List.eq_of_mem_replicate hb
  · intro m
    simp [BrownianMotion.default_event_space_bijector]
  · intro m
    refine ⟨?_, rfl, rfl, ?_⟩
    · simp only [BrownianMotionUnknownScales.default_event_space_bijector,
        List.length_append, List.length_replicate, List.length_cons,
        List.length_nil]
      omega
    · intro i h2 hlt
      match i, h2 with
      | j + 2, _ =>
        have hj : j < m.num_timesteps := by omega
        simp [BrownianMotionUnknownScales.default_event_space_bijector,
          List.getD_eq_getElem?_getD, List.getElem?_replicate, hj]
  · intro x
    have h1 : (1 : ℝ) < 1 + Real.exp x :=
      lt_add_of_pos_right 1 (Real.exp_pos x)
    exact Real.log_pos h1

theorem default_event_space_bijector_spec_witness :
    Bijector.identity ∈ (BrownianMotion.mk [LocEntry.nan] 1 1).default_event_space_bijector
  ∧ 2 ≤ 2
  ∧ 2 < (BrownianMotionUnknownScales.mk [LocEntry.nan]).num_timesteps + 2
  ∧ Bijector.identity = Bijector.identity
  ∧ (BrownianMotionUnknownScales.mk [LocEntry.nan]).default_event_space_bijector.getD 2
      Bijector.softplus = Bijector.identity
  ∧ 0 < Bijector.softplus.forward 0 :=
  ⟨by simp [BrownianMotion.default_event_space_bijector,
      BrownianMotion.num_timesteps],
    Nat.le_refl 2,
    by decide,
    default_event_space_bijector_spec.1 (BrownianMotion.mk [LocEntry.nan] 1 1)
      Bijector.identity
      (by simp [BrownianMotion.default_event_space_bijector,
        BrownianMotion.num_timesteps]),
    ((default_event_space_bijector_spec.2.2.1
      (BrownianMotionUnknownScales.mk [LocEntry.nan])).2.2.2 2
      (Nat.le_refl 2) (by decide)),
    default_event_space_bijector_spec.2.2.2.2 0⟩

/-- C7: the `identity` sample transformation of the fixed-scales models
stacks the latent positions along the last axis; the unknown-scales one
returns a record with the first component as `innovation_noise_scale`, the
second as `observation_noise_scale`, and the stack of the remaining
components as `locs`. -/
theorem identity_sample_transformation_spec :
    (∀ params : List ℝ, BrownianMotion.ext_identity params = tf_stack params)
  ∧ (∀ (p0 p1 : ℝ) (rest : List ℝ) (r : UnknownScalesIdentityRecord),
      BrownianMotionUnknownScales.ext_identity (p0 :: p1 :: rest) = some r →
        r.innovation_noise_scale = p0
      ∧ r.observation_noise_scale = p1
      ∧ r.locs = tf_stack rest) := by
  refine ⟨fun _ => rfl, fun p0 p1 rest r h => ?_⟩
  cases rest with
  | nil => exact absurd h (by simp [BrownianMotionUnknownScales.ext_identity])
  | cons q qs =>
    have h' := Option.some.inj h
    subst h'
    exact ⟨rfl, rfl, rfl⟩

theorem identity_sample_transformation_spec_witness :
    BrownianMotionUnknownScales.ext_identity [(1 : ℝ), 2, 3]
      = some (UnknownScalesIdentityRecord.mk 1 2 [3])
  ∧ (UnknownScalesIdentityRecord.mk (1 : ℝ) 2 [3]).innovation_noise_scale = 1
  ∧ (UnknownScalesIdentityRecord.mk (1 : ℝ) 2 [3]).observation_noise_scale = 2
  ∧ (UnknownScalesIdentityRecord.mk (1 : ℝ) 2 [3]).locs = tf_stack [3] :=
  ⟨rfl,
    identity_sample_transformation_spec.2 1 2 [3]
      (UnknownScalesIdentityRecord.mk 1 2 [3]) rfl⟩

/-- C8: `log_likelihood` is a pure, deterministic function of its value
argument: equal arguments give equal results, and the call leaves the
model's state unchanged (the explicit-state embedding of the method returns
the model unmodified). -/
theorem log_likelihood_pure_and_stateless :
    (∀ (m : BrownianMotion) (v1 v2 : List ℝ), v1 = v2 →
        (m.log_likelihood_call v1).1 = (m.log_likelihood_call v2).1
      ∧ (m.log_likelihood_call v1).2 = m)
  ∧ (∀ (m : BrownianMotionUnknownScales) (v1 v2 : List ℝ), v1 = v2 →
        (m.log_likelihood_call v1).1 = (m.log_likelihood_call v2).1
      ∧ (m.log_likelihood_call v1).2 = m) :=
  ⟨fun _ _ _ h => ⟨by rw [h], rfl⟩, fun _ _ _ h => ⟨by rw [h], rfl⟩⟩

theorem log_likelihood_pure_and_stateless_witness :
    [(0 : ℝ)] = [(0 : ℝ)]
  ∧ ((BrownianMotion.mk [LocEntry.nan] 1 1).log_likelihood_call [(0 : ℝ)]).1
      = ((BrownianMotion.mk [LocEntry.nan] 1 1).log_likelihood_call [(0 : ℝ)]).1
  ∧ ((BrownianMotion.mk [LocEntry.nan] 1 1).log_likelihood_call [(0 : ℝ)]).2
      = BrownianMotion.mk [LocEntry.nan] 1 1 :=
  ⟨rfl,
    log_likelihood_pure_and_stateless.1 (BrownianMotion.mk [LocEntry.nan] 1 1)
      [(0 : ℝ)] [(0 : ℝ)] rfl⟩
